import Mathlib

/-!
Verification of the calendar utilities in src/core-js-dates-tasks.js.

Modelling conventions (shallow embedding):

* A JavaScript `Date` is its time value: an integer number of milliseconds
  since the Unix epoch (`Int`).  The environment's local time zone is taken
  to be UTC, so the local-time accessors (`getDay`, `getDate`, `getMonth`,
  `getFullYear`, the `new Date(y, m, d)` constructor) coincide with their
  UTC counterparts.
* The platform primitives are translated from the ECMAScript specification
  (Day, WeekDay, DayFromYear, YearFromTime, MonthFromTime, DateFromTime,
  MakeDay, HourFromTime, MinFromTime, SecFromTime), including the
  two-digit-year rule of the `Date` constructor (years 0..99 mean 1900+y)
  and month-overflow normalisation.  `YearFromTime` is specified in
  ECMAScript as "the largest integer y such that TimeFromYear(y) <= t";
  here it is realised as a terminating linear search from 1970, which is
  proved below to satisfy exactly that characterisation.
* All JavaScript number arithmetic appearing in the source acts on exact
  integers within the double-precision safe range, so it is modelled with
  exact `Int` arithmetic; `Math.floor` of a division by a positive constant
  is Euclidean division `/`, and `x % c` on nonnegative `x` is `%`.
-/

/-- Milliseconds per day (1000*60*60*24 in the source). -/
def msPerDay : Int := 86400000

/-- ECMAScript Day(t) = floor(t / msPerDay). -/
def jsDay (t : Int) : Int := t / msPerDay

/-- ECMAScript WeekDay on a day number: (day + 4) modulo 7 (0 = Sunday). -/
def weekdayOfDay (d : Int) : Int := (d + 4) % 7

/-- Leap-year indicator from ECMAScript DaysInYear: 1 for leap years, 0 otherwise. -/
def leapInd (y : Int) : Int :=
  (if (4:Int) ∣ y then 1 else 0) - (if (100:Int) ∣ y then 1 else 0) +
    (if (400:Int) ∣ y then 1 else 0)

/-- ECMAScript DaysInYear(y). -/
def daysInYear (y : Int) : Int := 365 + leapInd y

/-- ECMAScript DayFromYear(y). -/
def dayFromYear (y : Int) : Int :=
  365 * (y - 1970) + (y - 1969) / 4 - (y - 1901) / 100 + (y - 1601) / 400

theorem leapInd_nonneg (y : Int) : 0 ≤ leapInd y := by
  unfold leapInd
  split <;> split <;> split <;> omega

theorem leapInd_le_one (y : Int) : leapInd y ≤ 1 := by
  unfold leapInd
  have h1 : (400:Int) ∣ y → (100:Int) ∣ y := fun h => dvd_trans (by norm_num) h
  split <;> split <;> split <;> omega

theorem dayFromYear_succ (y : Int) :
    dayFromYear (y + 1) = dayFromYear y + daysInYear y := by
  unfold dayFromYear daysInYear leapInd
  have h4 : (y + 1 - 1969) / 4 - (y - 1969) / 4 = if (4:Int) ∣ y then 1 else 0 := by
    split <;> omega
  have h100 : (y + 1 - 1901) / 100 - (y - 1901) / 100 = if (100:Int) ∣ y then 1 else 0 := by
    split <;> omega
  have h400 : (y + 1 - 1601) / 400 - (y - 1601) / 400 = if (400:Int) ∣ y then 1 else 0 := by
    split <;> omega
  split at h4 <;> split at h100 <;> split at h400 <;> omega

theorem daysInYear_lb (y : Int) : 365 ≤ daysInYear y := by
  have := leapInd_nonneg y; unfold daysInYear; omega

theorem daysInYear_ub (y : Int) : daysInYear y ≤ 366 := by
  have := leapInd_le_one y; unfold daysInYear; omega

/-- Gap bounds for DayFromYear over a distance of n years. -/
theorem dayFromYear_add_ge (a : Int) (n : Nat) :
    dayFromYear a + n ≤ dayFromYear (a + n) := by
  induction n with
  | zero => simp
  | succ k ih =>
      have h2 := dayFromYear_succ (a + k)
      have h3 := daysInYear_lb (a + k)
      have h4 : a + (k + 1 : Nat) = (a + k) + 1 := by push_cast; ring
      rw [h4]
      omega

theorem dayFromYear_sub_le (a : Int) (n : Nat) :
    dayFromYear (a - n) ≤ dayFromYear a - n := by
  induction n with
  | zero => simp
  | succ k ih =>
      have h2 := dayFromYear_succ (a - k - 1)
      have h3 := daysInYear_lb (a - k - 1)
      have h4 : a - (k + 1 : Nat) = (a - k) - 1 := by push_cast; ring
      have h5 : a - k - 1 + 1 = a - k := by ring
      rw [h4]
      rw [h5] at h2
      omega

/-- Fuel-based upward search for the year containing day z, realising the
ECMAScript YearFromTime characterisation; the fuel is an upper bound on the
number of years to cross. -/
def yearUp : Nat → Int → Int → Int
  | 0, y, _ => y
  | fuel + 1, y, z => if dayFromYear (y + 1) ≤ z then yearUp fuel (y + 1) z else y

/-- Fuel-based downward search for the year containing day z. -/
def yearDown : Nat → Int → Int → Int
  | 0, y, _ => y
  | fuel + 1, y, z => if z < dayFromYear y then yearDown fuel (y - 1) z else y

/-- ECMAScript YearFromTime on a day number: the unique y with
DayFromYear(y) <= z < DayFromYear(y+1).  The fuel passed to the searches is
proved sufficient in yearOfDay_spec. -/
def yearOfDay (z : Int) : Int :=
  if z < dayFromYear 1970 then yearDown ((dayFromYear 1970 - z).toNat + 1) 1970 z
  else yearUp ((z - dayFromYear 1970).toNat + 1) 1970 z

theorem yearUp_spec (fuel : Nat) (y z : Int) (h : dayFromYear y ≤ z)
    (hfuel : z < dayFromYear (y + fuel)) :
    dayFromYear (yearUp fuel y z) ≤ z ∧ z < dayFromYear (yearUp fuel y z + 1) := by
  induction fuel generalizing y with
  | zero => simp at hfuel; omega
  | succ k ih =>
      rw [yearUp]
      split
      · refine ih (y + 1) (by assumption) ?_
        have h4 : y + (k + 1 : Nat) = (y + 1) + k := by push_cast; ring
        rw [h4] at hfuel
        exact hfuel
      · exact ⟨h, by omega⟩

theorem yearDown_spec (fuel : Nat) (y z : Int) (h : z < dayFromYear (y + 1))
    (hfuel : dayFromYear (y - fuel) ≤ z) :
    dayFromYear (yearDown fuel y z) ≤ z ∧ z < dayFromYear (yearDown fuel y z + 1) := by
  induction fuel generalizing y with
  | zero => simp at hfuel; exact ⟨hfuel, h⟩
  | succ k ih =>
      rw [yearDown]
      split
      · refine ih (y - 1) (by simpa using (by assumption : z < dayFromYear y)) ?_
        have h4 : y - (k + 1 : Nat) = (y - 1) - k := by push_cast; ring
        rw [h4] at hfuel
        exact hfuel
      · exact ⟨by omega, h⟩

theorem yearOfDay_spec (z : Int) :
    dayFromYear (yearOfDay z) ≤ z ∧ z < dayFromYear (yearOfDay z + 1) := by
  unfold yearOfDay
  split
  · rename_i hlt
    refine yearDown_spec _ 1970 z ?_ ?_
    · have := dayFromYear_add_ge 1970 1
      norm_num at this ⊢
      omega
    · have := dayFromYear_sub_le 1970 ((dayFromYear 1970 - z).toNat + 1)
      have h2 : ((dayFromYear 1970 - z).toNat + 1 : Nat) = ((dayFromYear 1970 - z).toNat + 1 : Int) := by
        push_cast; ring
      omega
  · rename_i hge
    refine yearUp_spec _ 1970 z (by omega) ?_
    have := dayFromYear_add_ge 1970 ((z - dayFromYear 1970).toNat + 1)
    omega

theorem dayFromYear_mono {a b : Int} (h : a ≤ b) : dayFromYear a ≤ dayFromYear b := by
  have key : ∀ n : Nat, ∀ a : Int, dayFromYear a ≤ dayFromYear (a + n) := by
    intro n
    induction n with
    | zero => intro a; simp
    | succ k ih =>
        intro a
        have h1 := ih a
        have h2 := dayFromYear_succ (a + k)
        have h3 := daysInYear_lb (a + k)
        have : dayFromYear (a + (k + 1 : Nat)) = dayFromYear (a + k + 1) := by
          norm_num; ring_nf
        omega
  have ⟨n, hn⟩ : ∃ n : Nat, b = a + n := ⟨(b - a).toNat, by omega⟩
  subst hn
  exact key n a

/-- Uniqueness of the year bracket. -/
theorem yearOfDay_eq {y z : Int} (h1 : dayFromYear y ≤ z) (h2 : z < dayFromYear (y + 1)) :
    yearOfDay z = y := by
  have hs := yearOfDay_spec z
  by_contra hne
  rcases lt_or_gt_of_ne hne with hlt | hgt
  · have : yearOfDay z + 1 ≤ y := by omega
    have := dayFromYear_mono this
    omega
  · have : y + 1 ≤ yearOfDay z := by omega
    have := dayFromYear_mono this
    omega

/-- Cumulative days before month m (0-based) in a year with leap indicator L,
per the ECMAScript MonthFromTime / DateFromTime tables. -/
def cumStart (L m : Int) : Int :=
  if m ≤ 0 then 0
  else if m = 1 then 31
  else if m = 2 then 59 + L
  else if m = 3 then 90 + L
  else if m = 4 then 120 + L
  else if m = 5 then 151 + L
  else if m = 6 then 181 + L
  else if m = 7 then 212 + L
  else if m = 8 then 243 + L
  else if m = 9 then 273 + L
  else if m = 10 then 304 + L
  else if m = 11 then 334 + L
  else 365 + L

/-- ECMAScript DayWithinYear on a day number. -/
def dayWithinYear (z : Int) : Int := z - dayFromYear (yearOfDay z)

/-- ECMAScript InLeapYear on a day number (0 or 1). -/
def inLeapYearI (z : Int) : Int := leapInd (yearOfDay z)

/-- ECMAScript MonthFromTime on a day number (0 = January .. 11 = December). -/
def monthFromDay (z : Int) : Int :=
  if dayWithinYear z < 31 then 0
  else if dayWithinYear z < 59 + inLeapYearI z then 1
  else if dayWithinYear z < 90 + inLeapYearI z then 2
  else if dayWithinYear z < 120 + inLeapYearI z then 3
  else if dayWithinYear z < 151 + inLeapYearI z then 4
  else if dayWithinYear z < 181 + inLeapYearI z then 5
  else if dayWithinYear z < 212 + inLeapYearI z then 6
  else if dayWithinYear z < 243 + inLeapYearI z then 7
  else if dayWithinYear z < 273 + inLeapYearI z then 8
  else if dayWithinYear z < 304 + inLeapYearI z then 9
  else if dayWithinYear z < 334 + inLeapYearI z then 10
  else 11

/-- ECMAScript DateFromTime on a day number (day of month, 1-based). -/
def dateFromDay (z : Int) : Int :=
  dayWithinYear z - cumStart (inLeapYearI z) (monthFromDay z) + 1

/-- The two-digit-year rule of the `Date(year, month, day)` constructor:
years 0..99 denote 1900..1999. -/
def fixYear (y : Int) : Int := if 0 ≤ y ∧ y ≤ 99 then 1900 + y else y

/-- ECMAScript MakeDay(y, m, d) with month-overflow normalisation: the day
number of the given civil date, linear in d. -/
def makeDay (y m d : Int) : Int :=
  let ym := y + m / 12
  let mn := m % 12
  dayFromYear ym + cumStart (leapInd ym) mn + (d - 1)

/-- Day number produced by `new Date(y, m, d)` (local time = UTC). -/
def mkDate (y m d : Int) : Int := makeDay (fixYear y) m d

/-- Time value produced by `new Date(y, m, d)` (local midnight, local = UTC). -/
def mkDateTs (y m d : Int) : Int := msPerDay * mkDate y m d

/-- JavaScript getDay (local = UTC). -/
def getDay (t : Int) : Int := weekdayOfDay (jsDay t)

/-- JavaScript getDate (local = UTC). -/
def getDate (t : Int) : Int := dateFromDay (jsDay t)

/-- JavaScript getMonth (local = UTC). -/
def getMonth (t : Int) : Int := monthFromDay (jsDay t)

/-- JavaScript getFullYear (local = UTC). -/
def getFullYear (t : Int) : Int := yearOfDay (jsDay t)

/-- ECMAScript HourFromTime. -/
def getUTCHours (t : Int) : Int := (t / 3600000) % 24

/-- ECMAScript MinFromTime. -/
def getUTCMinutes (t : Int) : Int := (t / 60000) % 60

/-- ECMAScript SecFromTime. -/
def getUTCSeconds (t : Int) : Int := (t / 1000) % 60

theorem dayWithinYear_bounds (z : Int) :
    0 ≤ dayWithinYear z ∧ dayWithinYear z < daysInYear (yearOfDay z) := by
  have h := yearOfDay_spec z
  have h2 := dayFromYear_succ (yearOfDay z)
  unfold dayWithinYear
  omega

/-- Day numbers within a year's bracket extract that year. -/
theorem yearOfDay_bracket (y k : Int) (h0 : 0 ≤ k) (h1 : k < daysInYear y) :
    yearOfDay (dayFromYear y + k) = y := by
  have h2 := dayFromYear_succ y
  exact yearOfDay_eq (by omega) (by omega)

theorem cumStart_succ_lb (L mIx : Int) (hL0 : 0 ≤ L) (hm0 : 0 ≤ mIx) (hm1 : mIx ≤ 11) :
    cumStart L mIx + 28 ≤ cumStart L (mIx + 1) := by
  have hm : mIx = 0 ∨ mIx = 1 ∨ mIx = 2 ∨ mIx = 3 ∨ mIx = 4 ∨ mIx = 5 ∨ mIx = 6 ∨
      mIx = 7 ∨ mIx = 8 ∨ mIx = 9 ∨ mIx = 10 ∨ mIx = 11 := by omega
  rcases hm with rfl|rfl|rfl|rfl|rfl|rfl|rfl|rfl|rfl|rfl|rfl|rfl <;>
    norm_num [cumStart] <;> omega

theorem cumStart_succ_ub (L mIx : Int) (hL1 : L ≤ 1) (hm0 : 0 ≤ mIx) (hm1 : mIx ≤ 11) :
    cumStart L (mIx + 1) ≤ cumStart L mIx + 31 := by
  have hm : mIx = 0 ∨ mIx = 1 ∨ mIx = 2 ∨ mIx = 3 ∨ mIx = 4 ∨ mIx = 5 ∨ mIx = 6 ∨
      mIx = 7 ∨ mIx = 8 ∨ mIx = 9 ∨ mIx = 10 ∨ mIx = 11 := by omega
  rcases hm with rfl|rfl|rfl|rfl|rfl|rfl|rfl|rfl|rfl|rfl|rfl|rfl <;>
    norm_num [cumStart] <;> omega

theorem cumStart_mono (L : Int) (hL0 : 0 ≤ L) {a b : Int} (ha : 0 ≤ a) (hb : b ≤ 12)
    (h : a ≤ b) : cumStart L a ≤ cumStart L b := by
  have key : ∀ n : Nat, ∀ a : Int, 0 ≤ a → a + n ≤ 12 → cumStart L a ≤ cumStart L (a + n) := by
    intro n
    induction n with
    | zero => intro a _ _; simp
    | succ k ih =>
        intro a ha hk
        have h1 := ih a ha (by omega)
        have h2 := cumStart_succ_lb L (a + k) hL0 (by omega) (by omega)
        have h3 : a + (k + 1 : Nat) = (a + k) + 1 := by push_cast; ring
        rw [h3]
        omega
  have ⟨n, hn⟩ : ∃ n : Nat, b = a + n := ⟨(b - a).toNat, by omega⟩
  subst hn
  exact key n a ha hb

/-- Selection property of the MonthFromTime if-chain in terms of the
cumulative month-start table. -/
theorem chainSel (L dw c : Int) (hL0 : 0 ≤ L) (hL1 : L ≤ 1) (hdw0 : 0 ≤ dw)
    (hdw1 : dw < 365 + L)
    (hc : c = if dw < 31 then (0:Int)
      else if dw < 59 + L then 1
      else if dw < 90 + L then 2
      else if dw < 120 + L then 3
      else if dw < 151 + L then 4
      else if dw < 181 + L then 5
      else if dw < 212 + L then 6
      else if dw < 243 + L then 7
      else if dw < 273 + L then 8
      else if dw < 304 + L then 9
      else if dw < 334 + L then 10
      else 11) :
    0 ≤ c ∧ c ≤ 11 ∧ cumStart L c ≤ dw ∧ dw < cumStart L (c + 1) := by
  by_cases h1 : dw < 31
  · rw [if_pos h1] at hc; subst hc; norm_num [cumStart]; omega
  · rw [if_neg h1] at hc
    by_cases h2 : dw < 59 + L
    · rw [if_pos h2] at hc; subst hc; norm_num [cumStart]; omega
    · rw [if_neg h2] at hc
      by_cases h3 : dw < 90 + L
      · rw [if_pos h3] at hc; subst hc; norm_num [cumStart]; omega
      · rw [if_neg h3] at hc
        by_cases h4 : dw < 120 + L
        · rw [if_pos h4] at hc; subst hc; norm_num [cumStart]; omega
        · rw [if_neg h4] at hc
          by_cases h5 : dw < 151 + L
          · rw [if_pos h5] at hc; subst hc; norm_num [cumStart]; omega
          · rw [if_neg h5] at hc
            by_cases h6 : dw < 181 + L
            · rw [if_pos h6] at hc; subst hc; norm_num [cumStart]; omega
            · rw [if_neg h6] at hc
              by_cases h7 : dw < 212 + L
              · rw [if_pos h7] at hc; subst hc; norm_num [cumStart]; omega
              · rw [if_neg h7] at hc
                by_cases h8 : dw < 243 + L
                · rw [if_pos h8] at hc; subst hc; norm_num [cumStart]; omega
                · rw [if_neg h8] at hc
                  by_cases h9 : dw < 273 + L
                  · rw [if_pos h9] at hc; subst hc; norm_num [cumStart]; omega
                  · rw [if_neg h9] at hc
                    by_cases h10 : dw < 304 + L
                    · rw [if_pos h10] at hc; subst hc; norm_num [cumStart]; omega
                    · rw [if_neg h10] at hc
                      by_cases h11 : dw < 334 + L
                      · rw [if_pos h11] at hc; subst hc; norm_num [cumStart]; omega
                      · rw [if_neg h11] at hc; subst hc; norm_num [cumStart]; omega

/-- MonthFromTime always selects the month whose cumulative bracket contains
the day within the year. -/
theorem monthFromDay_bounds (z : Int) :
    0 ≤ monthFromDay z ∧ monthFromDay z ≤ 11 ∧
    cumStart (inLeapYearI z) (monthFromDay z) ≤ dayWithinYear z ∧
    dayWithinYear z < cumStart (inLeapYearI z) (monthFromDay z + 1) := by
  have hb := dayWithinYear_bounds z
  have hdy : daysInYear (yearOfDay z) = 365 + inLeapYearI z := by
    unfold daysInYear inLeapYearI; rfl
  exact chainSel (inLeapYearI z) (dayWithinYear z) (monthFromDay z)
    (leapInd_nonneg _) (leapInd_le_one _) hb.1 (by omega) (by unfold monthFromDay; rfl)

/-- Uniqueness of the month bracket. -/
theorem monthFromDay_eq {z m : Int} (hm0 : 0 ≤ m) (hm1 : m ≤ 11)
    (h1 : cumStart (inLeapYearI z) m ≤ dayWithinYear z)
    (h2 : dayWithinYear z < cumStart (inLeapYearI z) (m + 1)) :
    monthFromDay z = m := by
  have hb := monthFromDay_bounds z
  have hL0 : 0 ≤ inLeapYearI z := leapInd_nonneg _
  by_contra hne
  rcases lt_or_gt_of_ne hne with hlt | hgt
  · have := cumStart_mono (inLeapYearI z) hL0 (a := monthFromDay z + 1) (b := m)
      (by omega) (by omega) (by omega)
    omega
  · have := cumStart_mono (inLeapYearI z) hL0 (a := m + 1) (b := monthFromDay z)
      (by omega) (by omega) (by omega)
    omega

/-- Extraction of year, month and day from a day number built from civil
components with a day inside the month. -/
theorem mk_extract (y m d : Int) (hm0 : 0 ≤ m) (hm1 : m ≤ 11) (hd1 : 1 ≤ d)
    (hd2 : d + cumStart (leapInd y) m ≤ cumStart (leapInd y) (m + 1)) :
    yearOfDay (dayFromYear y + cumStart (leapInd y) m + (d - 1)) = y ∧
    monthFromDay (dayFromYear y + cumStart (leapInd y) m + (d - 1)) = m ∧
    dateFromDay (dayFromYear y + cumStart (leapInd y) m + (d - 1)) = d := by
  have hL0 := leapInd_nonneg y
  have hL1 := leapInd_le_one y
  have hc0 : 0 ≤ cumStart (leapInd y) m := by
    have := cumStart_mono (leapInd y) hL0 (a := 0) (b := m) le_rfl (by omega) hm0
    simpa [cumStart] using this
  have hc1 : cumStart (leapInd y) (m + 1) ≤ 365 + leapInd y := by
    have := cumStart_mono (leapInd y) hL0 (a := m + 1) (b := 12) (by omega) le_rfl (by omega)
    have h12 : cumStart (leapInd y) 12 = 365 + leapInd y := by norm_num [cumStart]
    omega
  have hy : yearOfDay (dayFromYear y + cumStart (leapInd y) m + (d - 1)) = y := by
    rw [add_assoc]
    exact yearOfDay_bracket y (cumStart (leapInd y) m + (d - 1)) (by omega)
      (by unfold daysInYear; omega)
  have hdw : dayWithinYear (dayFromYear y + cumStart (leapInd y) m + (d - 1)) =
      cumStart (leapInd y) m + (d - 1) := by
    unfold dayWithinYear; rw [hy]; ring
  have hLz : inLeapYearI (dayFromYear y + cumStart (leapInd y) m + (d - 1)) = leapInd y := by
    unfold inLeapYearI; rw [hy]
  have hmo : monthFromDay (dayFromYear y + cumStart (leapInd y) m + (d - 1)) = m := by
    refine monthFromDay_eq hm0 hm1 ?_ ?_ <;> rw [hdw, hLz] <;> omega
  refine ⟨hy, hmo, ?_⟩
  unfold dateFromDay
  rw [hdw, hLz, hmo]
  omega

theorem jsDay_add_days (t k : Int) : jsDay (t + k * msPerDay) = jsDay t + k := by
  unfold jsDay msPerDay
  omega

theorem jsDay_ts (d : Int) : jsDay (msPerDay * d) = d := by
  unfold jsDay msPerDay
  omega

theorem getDay_lb (t : Int) : 0 ≤ getDay t := by
  unfold getDay weekdayOfDay
  omega

theorem getDay_ub (t : Int) : getDay t ≤ 6 := by
  unfold getDay weekdayOfDay
  omega

theorem getDay_add_days (t k : Int) : getDay (t + k * msPerDay) = (getDay t + k) % 7 := by
  unfold getDay weekdayOfDay
  rw [jsDay_add_days]
  omega

/-- Uniqueness of the month bracket. -/
theorem leapInd_eq (y : Int) :
    leapInd y = if y % 400 = 0 ∨ (y % 4 = 0 ∧ ¬(y % 100 = 0)) then 1 else 0 := by
  unfold leapInd
  split_ifs <;> omega

/-- Source getNextFriday (lines 94-105): with day = getDay(date) and
diff = 5 - day, jump diff days forward when diff > 0 and 7 - abs(diff) days
otherwise, preserving the time of day. -/
def getNextFriday (t : Int) : Int :=
  if 5 - getDay t > 0 then t + (5 - getDay t) * msPerDay
  else t + (7 - |5 - getDay t|) * msPerDay

/-- Core properties of getNextFriday: the result is a Friday on the smallest
day strictly after the input day that is a Friday, and a Friday input moves
exactly 7 days forward. -/
theorem nextFriday_props (t : Int) :
    getDay (getNextFriday t) = 5 ∧
    jsDay t < jsDay (getNextFriday t) ∧
    (∀ d : Int, jsDay t < d → d < jsDay (getNextFriday t) → weekdayOfDay d ≠ 5) ∧
    (getDay t = 5 → getNextFriday t = t + 7 * msPerDay) := by
  have h0 := getDay_lb t
  have h6 := getDay_ub t
  unfold getNextFriday
  split_ifs with hd
  · refine ⟨?_, ?_, ?_, ?_⟩
    · rw [getDay_add_days]; omega
    · rw [jsDay_add_days]; omega
    · intro d hd1 hd2
      rw [jsDay_add_days] at hd2
      unfold getDay at hd hd2 h0 h6
      unfold weekdayOfDay at *
      omega
    · intro h5; omega
  · have habs : |5 - getDay t| = getDay t - 5 := by
      rw [abs_of_nonpos (by omega)]; ring
    rw [habs]
    refine ⟨?_, ?_, ?_, ?_⟩
    · rw [getDay_add_days]; omega
    · rw [jsDay_add_days]; omega
    · intro d hd1 hd2
      rw [jsDay_add_days] at hd2
      unfold getDay at hd hd2 h0 h6
      unfold weekdayOfDay at *
      omega
    · intro h5; rw [h5]; norm_num

/-- C5: getNextFriday returns a Friday on the smallest day strictly after the
input day that is a Friday; in particular a Friday input moves exactly 7 days
forward, never staying on the same day. -/
theorem getNextFriday_correct (t : Int) :
    getDay (getNextFriday t) = 5 ∧
    jsDay t < jsDay (getNextFriday t) ∧
    (∀ d : Int, jsDay t < d → d < jsDay (getNextFriday t) → weekdayOfDay d ≠ 5) ∧
    (getDay t = 5 → getNextFriday t = t + 7 * msPerDay) :=
  nextFriday_props t

/-- Advancing to the next Friday adds an exact whole number of days. -/
theorem nextFriday_whole_days (t : Int) :
    ∃ k : Int, getNextFriday t - t = k * 86400000 ∧ 1 ≤ k ∧ k ≤ 7 ∧
      t < getNextFriday t ∧ getNextFriday t % 86400000 = t % 86400000 := by
  have h0 := getDay_lb t
  have h6 := getDay_ub t
  unfold getNextFriday
  split_ifs with hd
  · refine ⟨5 - getDay t, by unfold msPerDay; ring, by omega, by omega, ?_, ?_⟩ <;>
      unfold msPerDay <;> omega
  · have habs : |5 - getDay t| = getDay t - 5 := by
      rw [abs_of_nonpos (by omega)]; ring
    rw [habs]
    refine ⟨7 - (getDay t - 5), by unfold msPerDay; ring, by omega, by omega, ?_, ?_⟩ <;>
      unfold msPerDay <;> omega

/-- C9: getNextFriday advances the time value by an exact whole number of
days between 1 and 7, so the result is strictly later and the time of day
within the day is preserved exactly. -/
theorem getNextFriday_whole_days (t : Int) :
    ∃ k : Int, getNextFriday t - t = k * 86400000 ∧ 1 ≤ k ∧ k ≤ 7 ∧
      t < getNextFriday t ∧ getNextFriday t % 86400000 = t % 86400000 :=
  nextFriday_whole_days t

/-- Source getQuarter (lines 297-313): reads date.getMonth() and tests it
against the four quarter ranges, starting from quarter 0.  The four range
tests are mutually exclusive, so the sequence of independent ifs in the
source is an if-chain.  An invalid date has NaN month and every numeric
comparison against NaN is false, so the initial 0 survives; NaN is modelled
as `none`. -/
def quarterOfMonth : Option Int → Int
  | none => 0
  | some month =>
    if 0 ≤ month ∧ month ≤ 2 then 1
    else if 3 ≤ month ∧ month ≤ 5 then 2
    else if 6 ≤ month ∧ month ≤ 8 then 3
    else if 9 ≤ month ∧ month ≤ 11 then 4
    else 0

/-- Month of a possibly invalid date: an Invalid Date (none) has NaN month. -/
def getMonthOpt : Option Int → Option Int
  | none => none
  | some t => some (getMonth t)

/-- Source getQuarter on a possibly invalid date. -/
def getQuarter (d : Option Int) : Int := quarterOfMonth (getMonthOpt d)

/-- C10: getQuarter yields 0, outside the documented 1..4 range, on an
invalid date, and more generally the if-chain yields 0 whenever the month
value is not in 0..11. -/
theorem getQuarter_out_of_range :
    getQuarter none = 0 ∧
    (∀ m : Option Int, (∀ v : Int, m = some v → v < 0 ∨ 11 < v) →
      quarterOfMonth m = 0) := by
  constructor
  · rfl
  · intro m hm
    cases m with
    | none => rfl
    | some v =>
        have hv := hm v rfl
        simp only [quarterOfMonth]
        split_ifs <;> omega

/-- Witness for C10 at the concrete out-of-range month 12. -/
theorem getQuarter_out_of_range_witness :
    getQuarter none = 0 ∧ quarterOfMonth (some 12) = 0 :=
  ⟨getQuarter_out_of_range.1,
    getQuarter_out_of_range.2 (some 12) (by intro v hv; injection hv with h; omega)⟩

/-- Source getCountDaysInMonth (lines 118-124): difference in days between
the first day of the next month and the first day of the given month,
computed by successive divisions by 1000, 3600 and 24. -/
def getCountDaysInMonth (month year : Int) : Int :=
  (mkDateTs year month 1 - mkDateTs year (month - 1) 1) / 1000 / 3600 / 24

/-- Source isLeapYear (lines 390-397). JavaScript `x % c === 0` on integers
agrees with `x % c = 0` on Int for positive c. -/
def isLeapYear (t : Int) : Bool :=
  decide (getFullYear t % 400 = 0 ∨ (getFullYear t % 4 = 0 ∧ ¬(getFullYear t % 100 = 0)))

theorem msChainDiv (x : Int) : msPerDay * x / 1000 / 3600 / 24 = x := by
  unfold msPerDay
  omega

theorem mkDate_feb1 (y : Int) (hy : y < 0 ∨ 100 ≤ y) :
    mkDate y 1 1 = dayFromYear y + 31 := by
  have hfix : fixYear y = y := by unfold fixYear; split <;> omega
  unfold mkDate makeDay
  rw [hfix]
  norm_num [cumStart]

theorem mkDate_mar1 (y : Int) (hy : y < 0 ∨ 100 ≤ y) :
    mkDate y 2 1 = dayFromYear y + 59 + leapInd y := by
  have hfix : fixYear y = y := by unfold fixYear; split <;> omega
  unfold mkDate makeDay
  rw [hfix]
  norm_num [cumStart]
  ring

/-- C7: for every year in the documented four-digit domain (and any negative
year), getCountDaysInMonth(2, y), computed by calendar subtraction of the
first of March from the first of February, is 29 exactly for leap years
(y % 400 == 0, or y % 4 == 0 and y % 100 != 0) and 28 otherwise, and agrees
with isLeapYear on a date in year y. -/
theorem getCountDaysInMonth_feb (y : Int) (hy : y < 0 ∨ 100 ≤ y) :
    getCountDaysInMonth 2 y =
      (if y % 400 = 0 ∨ (y % 4 = 0 ∧ ¬(y % 100 = 0)) then 29 else 28) ∧
    (getCountDaysInMonth 2 y = 29 ↔ isLeapYear (mkDateTs y 1 1) = true) := by
  have h3 : getCountDaysInMonth 2 y = 28 + leapInd y := by
    unfold getCountDaysInMonth mkDateTs
    norm_num
    rw [mkDate_feb1 y hy, mkDate_mar1 y hy]
    have : msPerDay * (dayFromYear y + 59 + leapInd y) - msPerDay * (dayFromYear y + 31) =
        msPerDay * (28 + leapInd y) := by ring
    rw [this, msChainDiv]
  have hyr : getFullYear (mkDateTs y 1 1) = y := by
    unfold getFullYear mkDateTs
    rw [jsDay_ts, mkDate_feb1 y hy]
    exact yearOfDay_bracket y 31 (by omega) (by have := daysInYear_lb y; omega)
  constructor
  · rw [h3, leapInd_eq]
    split_ifs <;> omega
  · rw [h3]
    unfold isLeapYear
    rw [hyr]
    rw [leapInd_eq]
    simp only [decide_eq_true_eq]
    split_ifs with hP <;> simp [hP] <;> omega

/-- Witness for C7 at the spec examples: February 2024 has 29 days and
February 2023 has 28. -/
theorem getCountDaysInMonth_feb_witness :
    getCountDaysInMonth 2 2024 = 29 ∧ getCountDaysInMonth 2 2023 = 28 := by
  have h1 := (getCountDaysInMonth_feb 2024 (Or.inr (by norm_num))).1
  have h2 := (getCountDaysInMonth_feb 2023 (Or.inr (by norm_num))).1
  norm_num at h1 h2
  exact ⟨h1, h2⟩

/-- Witness for C5 at the spec example: Friday 2024-02-16 maps to Friday
2024-02-23, a week later, not the same day. -/
theorem getNextFriday_correct_witness :
    getDay (getNextFriday (mkDateTs 2024 1 16)) = 5 ∧
    getNextFriday (mkDateTs 2024 1 16) = mkDateTs 2024 1 23 := by
  refine ⟨(getNextFriday_correct (mkDateTs 2024 1 16)).1, ?_⟩
  have h := (getNextFriday_correct (mkDateTs 2024 1 16)).2.2.2 (by decide)
  rw [h]
  decide

/-- String.padStart(2, '0') applied to the decimal rendering of the
nonnegative numeric fields used by the source. -/
def pad2 (n : Int) : String := if n < 10 then "0" ++ toString n else toString n

/-- Option bag of Intl.DateTimeFormat as used by formatDate: which fields
use the '2-digit' style (true) rather than 'numeric' (false), and whether
the timeZone option is 'UTC' (true) rather than the environment zone. -/
structure IntlOptions where
  monthTwoDigit : Bool
  dayTwoDigit : Bool
  hourTwoDigit : Bool
  minuteTwoDigit : Bool
  secondTwoDigit : Bool
  timeZoneUTC : Bool

/-- Numeric field rendering per style. -/
def fmtNum (two : Bool) (n : Int) : String := if two then pad2 n else toString n

/-- Model of Intl.DateTimeFormat('default', options).format for the option
bags used here, resolved in the en-US-style default locale, which renders
'M/D/YYYY, h:mm:ss AM/PM' with a 12-hour clock; tz is the environment's
UTC offset in minutes and is consulted only when the timeZone option is
not 'UTC'. -/
def intlFormat (tz : Int) (o : IntlOptions) (t : Int) : String :=
  fmtNum o.monthTwoDigit (monthFromDay (jsDay (if o.timeZoneUTC then t else t + tz * 60000)) + 1) ++ "/" ++
    fmtNum o.dayTwoDigit (dateFromDay (jsDay (if o.timeZoneUTC then t else t + tz * 60000))) ++ "/" ++
    toString (yearOfDay (jsDay (if o.timeZoneUTC then t else t + tz * 60000))) ++ ", " ++
    fmtNum o.hourTwoDigit
      (if ((if o.timeZoneUTC then t else t + tz * 60000) / 3600000) % 24 % 12 = 0 then 12
        else ((if o.timeZoneUTC then t else t + tz * 60000) / 3600000) % 24 % 12) ++ ":" ++
    fmtNum o.minuteTwoDigit (((if o.timeZoneUTC then t else t + tz * 60000) / 60000) % 60) ++ ":" ++
    fmtNum o.secondTwoDigit (((if o.timeZoneUTC then t else t + tz * 60000) / 1000) % 60) ++ " " ++
    (if ((if o.timeZoneUTC then t else t + tz * 60000) / 3600000) % 24 < 12 then "AM" else "PM")

/-- Source formatDate (lines 178-190): Intl.DateTimeFormat('default') with
numeric month, day, year and hour, 2-digit minute and second, and timeZone
'UTC'. -/
def formatDate (tz t : Int) : String :=
  intlFormat tz ⟨false, false, false, true, true, true⟩ t

/-- Formatter stated by the specification: 'M/D/YYYY, h:mm:ss AM/PM' built
from the date's UTC fields, with single-digit month, day and hour not
zero-padded and minute and second always two digits. -/
def specFormatDate (t : Int) : String :=
  toString (getMonth t + 1) ++ "/" ++ toString (getDate t) ++ "/" ++
    toString (getFullYear t) ++ ", " ++
    toString (if getUTCHours t % 12 = 0 then (12:Int) else getUTCHours t % 12) ++ ":" ++
    pad2 (getUTCMinutes t) ++ ":" ++ pad2 (getUTCSeconds t) ++ " " ++
    (if getUTCHours t < 12 then "AM" else "PM")

/-- C2: formatDate renders the UTC fields as 'M/D/YYYY, h:mm:ss AM/PM'
independently of the environment's time zone offset, and matches the
spec's examples. -/
theorem formatDate_spec :
    (∀ tz tz2 t : Int, formatDate tz t = specFormatDate t ∧
      formatDate tz t = formatDate tz2 t) ∧
    formatDate 0 (mkDateTs 2024 1 1 + 15 * 3600000) = "2/1/2024, 3:00:00 PM" ∧
    formatDate (-300) (mkDateTs 2024 1 1 + 15 * 3600000) = "2/1/2024, 3:00:00 PM" ∧
    formatDate 0 (mkDateTs 2010 11 15 + 22 * 3600000 + 59 * 60000) =
      "12/15/2010, 10:59:00 PM" := by
  refine ⟨?_, by decide, by decide, by decide⟩
  intro tz tz2 t
  constructor
  · simp [formatDate, intlFormat, specFormatDate, fmtNum, getMonth, getDate, getFullYear,
      getUTCHours, getUTCMinutes, getUTCSeconds]
  · simp [formatDate, intlFormat]

/-- A model of String.prototype.split('-') working directly on the character
list. -/
def splitDashAux : List Char → List Char → List String
  | [], acc => [String.mk acc.reverse]
  | c :: rest, acc => if c = '-' then String.mk acc.reverse :: splitDashAux rest []
      else splitDashAux rest (c :: acc)

/-- Components of a 'DD-MM-YYYY' string, as in period.start.split('-'). -/
def parseDMYComponents (s : String) : List String := splitDashAux s.toList []

/-- JavaScript Number coercion on the digit strings appearing in well-formed
'DD-MM-YYYY' components (NaN propagation for malformed strings is collapsed
to 0; the claims only quantify over well-formed periods). -/
def jsNumAux : List Char → Nat → Option Nat
  | [], acc => some acc
  | c :: rest, acc =>
      if '0' ≤ c ∧ c ≤ '9' then jsNumAux rest (acc * 10 + (c.toNat - '0'.toNat)) else none

/-- Numeric value of a component string. -/
def jsNum (s : String) : Int :=
  match jsNumAux s.toList 0 with
  | some n => (n : Int)
  | none => 0

/-- The while loop of getWorkSchedule (lines 350-354): collect day after day
while at or before the end date.  Fuel-based; the fuel chosen at the call
site is proved sufficient. -/
def listDates : Nat → Int → Int → List Int
  | 0, _, _ => []
  | fuel + 1, s, e => if s ≤ e then s :: listDates fuel (s + msPerDay) e else []

/-- JavaScript Array.prototype.filter with the element index, as used by the
source's filter((date, index) => ...). -/
def filterIdx {α : Type} (q : Nat → α → Bool) : Nat → List α → List α
  | _, [] => []
  | i, x :: xs => if q i x then x :: filterIdx q (i + 1) xs else filterIdx q (i + 1) xs

/-- Source getWorkSchedule (lines 333-376). -/
def getWorkSchedule (start stop : String) (countWorkDays countOffDays : Nat) : List String :=
  let sc := parseDMYComponents start
  let ec := parseDMYComponents stop
  let startTs := mkDateTs (jsNum (sc.getD 2 "")) (jsNum (sc.getD 1 "") - 1) (jsNum (sc.getD 0 ""))
  let endTs := mkDateTs (jsNum (ec.getD 2 "")) (jsNum (ec.getD 1 "") - 1) (jsNum (ec.getD 0 ""))
  let dates := listDates (((endTs - startTs) / msPerDay).toNat + 1) startTs endTs
  let pattern := List.replicate countWorkDays (1 : Int) ++ List.replicate countOffDays 0
  (filterIdx
    (fun i _ =>
      if i < pattern.length then !(pattern.getD i 0 == 0)
      else !(pattern.getD (i % pattern.length) 0 == 0))
    0 dates).map
    (fun t => pad2 (getDate t) ++ "-" ++ pad2 (getMonth t + 1) ++ "-" ++ toString (getFullYear t))

theorem getD_replicate_lt {α : Type} (a d : α) :
    ∀ (n i : Nat), i < n → (List.replicate n a).getD i d = a := by
  intro n
  induction n with
  | zero => intro i h; omega
  | succ k ih =>
      intro i h
      cases i with
      | zero => simp [List.replicate_succ]
      | succ j => simpa [List.replicate_succ] using ih j (by omega)

theorem pattern_q (w o : Nat) (hwo : 1 ≤ w + o) (i : Nat) :
    (if i < (List.replicate w (1:Int) ++ List.replicate o 0).length
      then !((List.replicate w (1:Int) ++ List.replicate o 0).getD i 0 == 0)
      else !((List.replicate w (1:Int) ++ List.replicate o 0).getD
          (i % (List.replicate w (1:Int) ++ List.replicate o 0).length) 0 == 0)) =
    decide (i % (w + o) < w) := by
  have hlen : (List.replicate w (1:Int) ++ List.replicate o 0).length = w + o := by simp
  have key : ∀ j, j < w + o →
      (List.replicate w (1:Int) ++ List.replicate o 0).getD j 0 =
        if j < w then 1 else 0 := by
    intro j hj
    by_cases hjw : j < w
    · rw [if_pos hjw, List.getD_append _ _ _ _ (by simpa using hjw)]
      exact getD_replicate_lt _ _ _ _ hjw
    · rw [if_neg hjw, List.getD_append_right _ _ _ _ (by simpa using hjw)]
      simp only [List.length_replicate]
      exact getD_replicate_lt _ _ _ _ (by omega)
  rw [hlen]
  by_cases hi : i < w + o
  · rw [if_pos hi, key i hi]
    have hmod : i % (w + o) = i := Nat.mod_eq_of_lt hi
    rw [hmod]
    by_cases hiw : i < w
    · simp [hiw]
    · simp [hiw]
  · rw [if_neg hi, key _ (Nat.mod_lt _ (by omega))]
    by_cases hiw : i % (w + o) < w
    · simp [hiw]
    · simp [hiw]

theorem listDates_nil : ∀ (fuel : Nat) (s e : Int), e < s → listDates fuel s e = []
  | 0, _, _, _ => rfl
  | fuel + 1, s, e, h => by simp only [listDates, if_neg (by omega : ¬s ≤ e)]

theorem listDates_eq (k : Nat) : ∀ (fuel : Nat) (a : Int), k < fuel →
    listDates fuel (msPerDay * a) (msPerDay * (a + k)) =
      (List.range (k + 1)).map (fun i : Nat => msPerDay * (a + (i : Int))) := by
  induction k with
  | zero =>
      intro fuel a hf
      cases fuel with
      | zero => omega
      | succ f =>
          have h1 : msPerDay * a ≤ msPerDay * (a + ((0:Nat) : Int)) := by norm_num
          simp only [listDates, if_pos h1]
          rw [listDates_nil f _ _ (by unfold msPerDay; push_cast; omega)]
          rw [List.range_succ]
          norm_num
  | succ k ih =>
      intro fuel a hf
      cases fuel with
      | zero => omega
      | succ f =>
          have h1 : msPerDay * a ≤ msPerDay * (a + ((k + 1 : Nat) : Int)) := by
            unfold msPerDay; push_cast; omega
          simp only [listDates, if_pos h1]
          have h2 : msPerDay * a + msPerDay = msPerDay * (a + 1) := by ring
          have h3 : msPerDay * (a + ((k + 1 : Nat) : Int)) = msPerDay * ((a + 1) + (k : Int)) := by
            push_cast; ring
          rw [h2, h3, ih f (a + 1) (by omega)]
          conv_rhs => rw [List.range_succ_eq_map]
          simp only [List.map_cons, List.map_map]
          congr 1
          · norm_num
          · refine List.map_congr_left ?_
            intro x _
            simp only [Function.comp_apply]
            push_cast
            ring

theorem filterIdx_range {α β : Type} (q : Nat → α → Bool) (p : Nat → Bool) (f : Nat → α)
    (g : α → β) (hq : ∀ i, q i (f i) = p i) :
    ∀ (n j : Nat), (filterIdx q j ((List.range n).map (fun i => f (j + i)))).map g =
      ((List.range n).filter (fun i => p (j + i))).map (fun i => g (f (j + i))) := by
  intro n
  induction n with
  | zero => intro j; simp [filterIdx]
  | succ k ih =>
      intro j
      rw [List.range_succ_eq_map]
      simp only [List.map_cons, List.map_map, List.filter_cons, Nat.add_zero]
      rw [List.filter_map]
      have hcomp1 : ((fun i => f (j + i)) ∘ Nat.succ) = fun i : Nat => f ((j + 1) + i) := by
        funext i; simp only [Function.comp_apply]; congr 1; omega
      have hcomp2 : ((fun i => p (j + i)) ∘ Nat.succ) = fun i : Nat => p ((j + 1) + i) := by
        funext i; simp only [Function.comp_apply]; congr 1; omega
      simp only [filterIdx, hq]
      by_cases hpj : p j = true
      · rw [if_pos hpj, if_pos hpj]
        simp only [List.map_cons, List.map_map]
        rw [hcomp1, ih (j + 1), hcomp2]
        congr 1
        refine List.map_congr_left ?_
        intro x _
        simp only [Function.comp_apply]
        congr 2
        omega
      · rw [if_neg hpj, if_neg hpj]
        rw [hcomp1, ih (j + 1), hcomp2]
        simp only [List.map_map]
        refine List.map_congr_left ?_
        intro x _
        simp only [Function.comp_apply]
        congr 2
        omega

/-- The 'DD-MM-YYYY' rendering of a day number, as the source's final map
produces it. -/
def fmtDMY (z : Int) : String :=
  pad2 (dateFromDay z) ++ "-" ++ pad2 (monthFromDay z + 1) ++ "-" ++ toString (yearOfDay z)

/-- Schedule described by the specification: the calendar days at offsets
0..n-1 from the start day whose offset modulo (workDays + offDays) is below
workDays, in chronological order, formatted as 'DD-MM-YYYY'. -/
def specSchedule (startDay : Int) (n w o : Nat) : List String :=
  ((List.range n).filter (fun i => decide (i % (w + o) < w))).map
    (fun i : Nat => fmtDMY (startDay + (i : Int)))

/-- C6: on a well-formed 'DD-MM-YYYY' period with start at or before end and
positive work and off day counts, getWorkSchedule returns exactly the days
whose zero-based offset modulo (workDays + offDays) is less than workDays,
in order, formatted as 'DD-MM-YYYY'. -/
theorem getWorkSchedule_spec (s e s1 s2 s3 e1 e2 e3 : String) (w o : Nat)
    (hs : parseDMYComponents s = [s1, s2, s3])
    (he : parseDMYComponents e = [e1, e2, e3])
    (hw : 1 ≤ w) (ho : 1 ≤ o)
    (hrange : mkDate (jsNum s3) (jsNum s2 - 1) (jsNum s1) ≤
      mkDate (jsNum e3) (jsNum e2 - 1) (jsNum e1)) :
    getWorkSchedule s e w o =
      specSchedule (mkDate (jsNum s3) (jsNum s2 - 1) (jsNum s1))
        ((mkDate (jsNum e3) (jsNum e2 - 1) (jsNum e1) -
          mkDate (jsNum s3) (jsNum s2 - 1) (jsNum s1)).toNat + 1) w o := by
  simp only [getWorkSchedule, hs, he, List.getD_cons_succ, List.getD_cons_zero]
  set A := mkDate (jsNum s3) (jsNum s2 - 1) (jsNum s1) with hAdef
  set B := mkDate (jsNum e3) (jsNum e2 - 1) (jsNum e1) with hBdef
  set k := (B - A).toNat with hkdef
  have hBA : B = A + (k : Int) := by omega
  have hts1 : mkDateTs (jsNum s3) (jsNum s2 - 1) (jsNum s1) = msPerDay * A := rfl
  have hts2 : mkDateTs (jsNum e3) (jsNum e2 - 1) (jsNum e1) = msPerDay * B := rfl
  rw [hts1, hts2, hBA]
  have hfuel : ((msPerDay * (A + (k : Int)) - msPerDay * A) / msPerDay).toNat + 1 = k + 1 := by
    unfold msPerDay
    omega
  rw [hfuel]
  rw [listDates_eq k (k + 1) A (by omega)]
  have hmap : (List.range (k + 1)).map (fun i : Nat => msPerDay * (A + (i : Int))) =
      (List.range (k + 1)).map (fun i : Nat => (fun j : Nat => msPerDay * (A + (j : Int))) (0 + i)) := by
    refine List.map_congr_left ?_
    intro x _
    norm_num
  rw [hmap]
  rw [filterIdx_range _ (fun i => decide (i % (w + o) < w))
    (fun j : Nat => msPerDay * (A + (j : Int))) _ ?_ (k + 1) 0]
  · unfold specSchedule
    have hfil : (List.range (k + 1)).filter (fun i => decide ((0 + i) % (w + o) < w)) =
        (List.range (k + 1)).filter (fun i => decide (i % (w + o) < w)) := by
      refine List.filter_congr ?_
      intro x _
      norm_num
    rw [hfil]
    refine List.map_congr_left ?_
    intro x _
    simp only [Nat.zero_add]
    unfold fmtDMY getDate getMonth getFullYear
    rw [jsDay_ts]
  · intro i
    simpa using pattern_q w o (by omega) i

/-- Witness for C6 at the spec example: the 1-work/3-off pattern over
01-01-2024 .. 15-01-2024. -/
theorem getWorkSchedule_spec_witness :
    getWorkSchedule "01-01-2024" "15-01-2024" 1 3 =
      ["01-01-2024", "05-01-2024", "09-01-2024", "13-01-2024"] := by
  have h := getWorkSchedule_spec "01-01-2024" "15-01-2024" "01" "01" "2024" "15" "01" "2024"
    1 3 (by decide) (by decide) (by norm_num) (by norm_num) (by decide)
  rw [h]
  decide

theorem getDay_ts (z : Int) : getDay (msPerDay * z) = weekdayOfDay z := by
  unfold getDay
  rw [jsDay_ts]

theorem weekdayOfDay_add (z j : Int) : weekdayOfDay (z + j) = (weekdayOfDay z + j) % 7 := by
  unfold weekdayOfDay
  omega

theorem mkDate_linear (y m d : Int) : mkDate y m d = mkDate y m 1 + (d - 1) := by
  unfold mkDate makeDay
  ring

/-- Day number of the first of month m (0-based, m = 12 meaning January of
the next year, as the constructor normalises). -/
theorem mkDate_first (y m : Int) (hm0 : 0 ≤ m) (hm1 : m ≤ 12) :
    mkDate y m 1 = dayFromYear (fixYear y) + cumStart (leapInd (fixYear y)) m := by
  by_cases h12 : m = 12
  · subst h12
    unfold mkDate makeDay
    norm_num
    rw [dayFromYear_succ]
    unfold daysInYear
    norm_num [cumStart]
  · have h1 : m / 12 = 0 := by omega
    have h2 : m % 12 = m := by omega
    unfold mkDate makeDay
    rw [h1, h2]
    ring

/-- Source getCountWeekendsInMonth (lines 204-227): two weekend days per
full week, plus the weekend days among the remaining days, scanned backward
from the month's last day. -/
def getCountWeekendsInMonth (month year : Int) : Int :=
  let daysInMonth := (mkDateTs year month 1 - mkDateTs year (month - 1) 1) / 1000 / 3600 / 24
  let w := getDay (mkDateTs year (month - 1) daysInMonth)
  if daysInMonth % 7 = 0 then daysInMonth / 7 * 2
  else daysInMonth / 7 * 2 +
    ((((List.range (daysInMonth % 7).toNat).map
      (fun i : Nat => if (0:Int) ≤ w - (i : Int) then w - (i : Int) else 7 + (w - (i : Int)))).filter
      (fun el => el == 0 || el == 6)).length : Int)

/-- Brute-force weekend count stated by the specification: iterate every day
of the month and count Saturdays and Sundays. -/
def bruteWeekendCount (month year : Int) : Int :=
  ((((List.range ((mkDateTs year month 1 - mkDateTs year (month - 1) 1) / 1000 / 3600 / 24).toNat).map
    (fun i : Nat => getDay (mkDateTs year (month - 1) (1 + (i : Int))))).filter
    (fun d => d == 0 || d == 6)).length : Int)

theorem weekendCountKey (dm wf : Int) (h1 : 28 ≤ dm) (h2 : dm ≤ 31) (h3 : 0 ≤ wf)
    (h4 : wf < 7) :
    (if dm % 7 = 0 then dm / 7 * 2
      else dm / 7 * 2 +
        ((((List.range (dm % 7).toNat).map
          (fun i : Nat => if (0:Int) ≤ (wf + (dm - 1)) % 7 - (i : Int)
            then (wf + (dm - 1)) % 7 - (i : Int)
            else 7 + ((wf + (dm - 1)) % 7 - (i : Int)))).filter
          (fun el => el == 0 || el == 6)).length : Int)) =
    ((((List.range dm.toNat).map (fun i : Nat => (wf + (i : Int)) % 7)).filter
      (fun d => d == 0 || d == 6)).length : Int) := by
  have hdm : dm = 28 ∨ dm = 29 ∨ dm = 30 ∨ dm = 31 := by omega
  have hwf : wf = 0 ∨ wf = 1 ∨ wf = 2 ∨ wf = 3 ∨ wf = 4 ∨ wf = 5 ∨ wf = 6 := by omega
  rcases hdm with rfl|rfl|rfl|rfl <;> rcases hwf with rfl|rfl|rfl|rfl|rfl|rfl|rfl <;> decide

/-- C4: the full-weeks-plus-backward-scan computation of
getCountWeekendsInMonth agrees with the brute-force count over every day of
the month, for every month 1..12 and every year. -/
theorem getCountWeekendsInMonth_brute (month year : Int) (hm0 : 1 ≤ month)
    (hm1 : month ≤ 12) :
    getCountWeekendsInMonth month year = bruteWeekendCount month year := by
  have hL0 := leapInd_nonneg (fixYear year)
  have hL1 := leapInd_le_one (fixYear year)
  have hD2 := mkDate_first year month (by omega) (by omega)
  have hD1 := mkDate_first year (month - 1) (by omega) (by omega)
  have hlb := cumStart_succ_lb (leapInd (fixYear year)) (month - 1) hL0 (by omega) (by omega)
  have hub := cumStart_succ_ub (leapInd (fixYear year)) (month - 1) hL1 (by omega) (by omega)
  have hm1' : month - 1 + 1 = month := by ring
  rw [hm1'] at hlb hub
  have hdm : (mkDateTs year month 1 - mkDateTs year (month - 1) 1) / 1000 / 3600 / 24 =
      cumStart (leapInd (fixYear year)) month - cumStart (leapInd (fixYear year)) (month - 1) := by
    unfold mkDateTs
    rw [hD1, hD2]
    have he : msPerDay * (dayFromYear (fixYear year) + cumStart (leapInd (fixYear year)) month) -
        msPerDay * (dayFromYear (fixYear year) + cumStart (leapInd (fixYear year)) (month - 1)) =
        msPerDay * (cumStart (leapInd (fixYear year)) month -
          cumStart (leapInd (fixYear year)) (month - 1)) := by ring
    rw [he, msChainDiv]
  set dm := cumStart (leapInd (fixYear year)) month -
    cumStart (leapInd (fixYear year)) (month - 1) with hdmdef
  set wf := weekdayOfDay (mkDate year (month - 1) 1) with hwfdef
  have hlast : getDay (mkDateTs year (month - 1) dm) = (wf + (dm - 1)) % 7 := by
    unfold mkDateTs
    rw [mkDate_linear, getDay_ts, weekdayOfDay_add]
  have hwf0 : 0 ≤ wf := by rw [hwfdef]; unfold weekdayOfDay; omega
  have hwf7 : wf < 7 := by rw [hwfdef]; unfold weekdayOfDay; omega
  have hbr : ∀ i : Nat, getDay (mkDateTs year (month - 1) (1 + (i : Int))) =
      (wf + (i : Int)) % 7 := by
    intro i
    unfold mkDateTs
    rw [mkDate_linear, getDay_ts, weekdayOfDay_add]
    norm_num
  simp only [getCountWeekendsInMonth, bruteWeekendCount]
  rw [hdm, hlast]
  have hmap : (List.range dm.toNat).map
      (fun i : Nat => getDay (mkDateTs year (month - 1) (1 + (i : Int)))) =
      (List.range dm.toNat).map (fun i : Nat => (wf + (i : Int)) % 7) :=
    List.map_congr_left (fun i _ => hbr i)
  rw [hmap]
  exact weekendCountKey dm wf (by omega) (by omega) hwf0 hwf7

/-- Witness for C4 at the spec examples: May 2022 has 9 weekend days,
December 2023 has 10, January 2024 has 8. -/
theorem getCountWeekendsInMonth_brute_witness :
    getCountWeekendsInMonth 5 2022 = bruteWeekendCount 5 2022 ∧
    getCountWeekendsInMonth 12 2023 = bruteWeekendCount 12 2023 ∧
    getCountWeekendsInMonth 1 2024 = bruteWeekendCount 1 2024 ∧
    getCountWeekendsInMonth 5 2022 = 9 ∧ getCountWeekendsInMonth 12 2023 = 10 ∧
    getCountWeekendsInMonth 1 2024 = 8 :=
  ⟨getCountWeekendsInMonth_brute 5 2022 (by norm_num) (by norm_num),
    getCountWeekendsInMonth_brute 12 2023 (by norm_num) (by norm_num),
    getCountWeekendsInMonth_brute 1 2024 (by norm_num) (by norm_num),
    by decide, by decide, by decide⟩

/-- Source getWeekNumberByDate (lines 242-259).  The for-loop reassigns
firstDayOfYear to new Date(year, 0, i + 1) for i = 1..7 and breaks at the
first Monday, which the find? over [1..7] reproduces (falling back to
Date(year, 0, 8) as the loop's last assignment if no Monday were found).
Math.ceil((diff / 1000 / 3600 / 24 + 1) / 7) is exact for the reachable
inputs (the anchor is in the same year as the date whenever diff > 0, so
the float divisions stay well inside double precision), giving the integer
ceiling of (diff + msPerDay) / (7 * msPerDay). -/
def getWeekNumberByDate (t : Int) : Int :=
  let first :=
    if getDay (mkDateTs (getFullYear t) 0 1) < 1 ∨ 4 < getDay (mkDateTs (getFullYear t) 0 1) then
      match (List.range' 1 7).find?
          (fun i => decide (getDay (mkDateTs (getFullYear t) 0 ((i : Int) + 1)) = 1)) with
      | some i => mkDateTs (getFullYear t) 0 ((i : Int) + 1)
      | none => mkDateTs (getFullYear t) 0 8
    else mkDateTs (getFullYear t) 0 1
  if t - first ≤ 0 then 1
  else (t - first + msPerDay + 7 * msPerDay - 1) / (7 * msPerDay)

/-- The anchor the source actually uses: January 1 when January 1 falls on
Monday..Thursday, otherwise the first Monday of January. -/
def weekAnchor (y : Int) : Int :=
  if getDay (mkDateTs y 0 1) = 0 then mkDateTs y 0 1 + msPerDay
  else if getDay (mkDateTs y 0 1) ≤ 4 then mkDateTs y 0 1
  else mkDateTs y 0 1 + (8 - getDay (mkDateTs y 0 1)) * msPerDay

/-- Week numbering against the source's anchor: 1 at or before the anchor,
otherwise the ceiling of (days since anchor + 1) / 7. -/
def weekNumberAnchored (t : Int) : Int :=
  if t ≤ weekAnchor (getFullYear t) then 1
  else (t - weekAnchor (getFullYear t) + 8 * msPerDay - 1) / (7 * msPerDay)

/-- ISO-8601 week numbering as worded by the specification: week 1 is the
week containing the year's first Thursday, weeks start on Monday, and dates
before the start of week 1 are clamped to 1. -/
def isoWeekNumber (t : Int) : Int :=
  let jan1 := mkDate (getFullYear t) 0 1
  let week1Monday := jan1 + (4 - weekdayOfDay jan1 + 7) % 7 - 3
  if jsDay t < week1Monday then 1 else (jsDay t - week1Monday) / 7 + 1

theorem weekTail_eq (t X : Int) :
    (if t - X ≤ 0 then (1:Int) else (t - X + msPerDay + 7 * msPerDay - 1) / (7 * msPerDay)) =
    (if t ≤ X then 1 else (t - X + 8 * msPerDay - 1) / (7 * msPerDay)) := by
  by_cases hc : t ≤ X
  · rw [if_pos (by omega), if_pos hc]
  · rw [if_neg (by omega), if_neg hc]
    congr 1
    ring

theorem mkDateTs_jan_linear (y d : Int) :
    mkDateTs y 0 d = mkDateTs y 0 1 + (d - 1) * msPerDay := by
  unfold mkDateTs
  rw [mkDate_linear y 0 d]
  ring

theorem getDay_jan (y i : Int) :
    getDay (mkDateTs y 0 (i + 1)) = (getDay (mkDateTs y 0 1) + i) % 7 := by
  rw [mkDateTs_jan_linear y (i + 1)]
  have h : (i + 1 - 1) = i := by ring
  rw [h, getDay_add_days]

theorem codeAnchor_eq (y : Int) :
    (if getDay (mkDateTs y 0 1) < 1 ∨ 4 < getDay (mkDateTs y 0 1) then
      match (List.range' 1 7).find?
          (fun i => decide (getDay (mkDateTs y 0 ((i : Int) + 1)) = 1)) with
      | some i => mkDateTs y 0 ((i : Int) + 1)
      | none => mkDateTs y 0 8
    else mkDateTs y 0 1) = weekAnchor y := by
  have h0 := getDay_lb (mkDateTs y 0 1)
  have h6 := getDay_ub (mkDateTs y 0 1)
  have hr : List.range' 1 7 = [1, 2, 3, 4, 5, 6, 7] := rfl
  have hcase : getDay (mkDateTs y 0 1) = 0 ∨ getDay (mkDateTs y 0 1) = 1 ∨
      getDay (mkDateTs y 0 1) = 2 ∨ getDay (mkDateTs y 0 1) = 3 ∨
      getDay (mkDateTs y 0 1) = 4 ∨ getDay (mkDateTs y 0 1) = 5 ∨
      getDay (mkDateTs y 0 1) = 6 := by omega
  rcases hcase with hw|hw|hw|hw|hw|hw|hw <;>
    simp only [weekAnchor, hr, List.find?, getDay_jan, hw] <;>
    norm_num <;>
    rw [mkDateTs_jan_linear] <;>
    ring

/-- C1 (amended): getWeekNumberByDate anchors week 1 at January 1 when
January 1 falls on Monday..Thursday and at the first Monday of January
otherwise, returns the ceiling of (days since anchor + 1) / 7, and returns 1
for any date at or before the anchor; in particular
getWeekNumberByDate(2024-01-03) = 1 and getWeekNumberByDate(2024-01-31) = 5.
The anchor differs from the ISO-8601 one when January 1 falls on a Tuesday,
Wednesday or Thursday; see the counterexample at 2019-01-07. -/
theorem getWeekNumberByDate_anchored :
    (∀ t : Int, getWeekNumberByDate t = weekNumberAnchored t) ∧
    getWeekNumberByDate (mkDateTs 2024 0 3) = 1 ∧
    getWeekNumberByDate (mkDateTs 2024 0 31) = 5 := by
  refine ⟨?_, by decide, by decide⟩
  intro t
  simp only [getWeekNumberByDate, weekNumberAnchored]
  rw [codeAnchor_eq]
  exact weekTail_eq t (weekAnchor (getFullYear t))

/-- Counterexample to C1 as stated: 2019-01-07 is in ISO-8601 week 2 (week 1
of 2019 runs 2018-12-31 .. 2019-01-06), but the source returns 1 because it
anchors week 1 at January 1, a Tuesday in 2019. -/
theorem getWeekNumberByDate_counterexample :
    getWeekNumberByDate (mkDateTs 2019 0 7) = 1 ∧
    isoWeekNumber (mkDateTs 2019 0 7) = 2 ∧ (1 : Int) ≠ 2 :=
  ⟨by decide, by decide, by decide⟩

/-- Source getNextFridayThe13th (lines 272-284): the next-Friday step is the
body of getNextFriday repeated verbatim in the source; recurse until the
day of month is 13.  The source recursion carries no explicit bound; the
fuel here is an upper bound on the number of next-Friday steps, and fuel 84
is proved sufficient for every start in the termination theorem. -/
def getNextFridayThe13thAux : Nat → Int → Option Int
  | 0, _ => none
  | fuel + 1, t =>
      if getDate (getNextFriday t) = 13 then some (getNextFriday t)
      else getNextFridayThe13thAux fuel (getNextFriday t)

/-- The source function, with the 84-step bound of C8. -/
def getNextFridayThe13th (t : Int) : Option Int := getNextFridayThe13thAux 84 t

/-- Month lengths by 0-based index for a given leap flag. -/
def mlen (leap : Bool) (mIdx : Nat) : Nat :=
  match mIdx with
  | 0 => 31
  | 1 => if leap then 29 else 28
  | 2 => 31
  | 3 => 30
  | 4 => 31
  | 5 => 30
  | 6 => 31
  | 7 => 31
  | 8 => 30
  | 9 => 31
  | 10 => 30
  | _ => 31

/-- Days from the 13th of a start month (0-based index mIdx, leap flag L1
for the start year and L2 for the following year) to the 13th of the month
j months later. -/
def cumOffset (L1 L2 : Bool) (mIdx : Nat) : Nat → Nat
  | 0 => 0
  | j + 1 => cumOffset L1 L2 mIdx j + mlen (if mIdx + j < 12 then L1 else L2) ((mIdx + j) % 12)

/-- Among the 13ths of any 14 consecutive months, every weekday occurs:
whatever the start month, the leap flags and the weekday of the first 13th,
some 13th within the window falls on a Friday. -/
theorem coverage14 : ∀ (L1 L2 : Bool) (m : Fin 12) (w : Fin 7),
    ∃ j : Fin 14, ((w : Nat) + cumOffset L1 L2 m j) % 7 = 5 := by decide

/-- Boolean leap flag of a year. -/
def leapB (y : Int) : Bool := decide (leapInd y = 1)

theorem leapInd_cases (y : Int) : leapInd y = 0 ∨ leapInd y = 1 := by
  have := leapInd_nonneg y
  have := leapInd_le_one y
  omega

theorem mlen_lb (L : Bool) (M : Nat) : 28 ≤ mlen L M := by
  by_cases hM : M ≤ 10
  · rcases M with _|_|_|_|_|_|_|_|_|_|_|n <;> cases L <;>
      first
        | (norm_num [mlen]; done)
        | omega
  · obtain ⟨n, rfl⟩ : ∃ n, M = n + 11 := ⟨M - 11, by omega⟩
    have h : mlen L (n + 11) = 31 := rfl
    omega

theorem mlen_ub (L : Bool) (M : Nat) : mlen L M ≤ 31 := by
  by_cases hM : M ≤ 10
  · rcases M with _|_|_|_|_|_|_|_|_|_|_|n <;> cases L <;>
      first
        | (norm_num [mlen]; done)
        | omega
  · obtain ⟨n, rfl⟩ : ∃ n, M = n + 11 := ⟨M - 11, by omega⟩
    have h : mlen L (n + 11) = 31 := rfl
    omega

theorem cumOffset_le (L1 L2 : Bool) (m : Nat) : ∀ j, cumOffset L1 L2 m j ≤ 31 * j := by
  intro j
  induction j with
  | zero => simp [cumOffset]
  | succ k ih =>
      have hm := mlen_ub (if m + k < 12 then L1 else L2) ((m + k) % 12)
      simp only [cumOffset]
      omega

/-- One-month step for the day number of the 13th. -/
theorem step13 (Y : Int) (M : Nat) (hM : M < 12) :
    (if M = 11 then dayFromYear (Y + 1) + cumStart (leapInd (Y + 1)) 0
     else dayFromYear Y + cumStart (leapInd Y) ((M : Int) + 1))
    = dayFromYear Y + cumStart (leapInd Y) (M : Int) + (mlen (leapB Y) M : Int) := by
  rcases leapInd_cases Y with hL | hL
  all_goals (
    have hLb : leapB Y = decide (leapInd Y = 1) := rfl
    by_cases h11 : M = 11
    · subst h11
      rw [if_pos rfl, dayFromYear_succ]
      unfold daysInYear
      norm_num [cumStart, mlen, leapB, hL] <;> omega
    · rw [if_neg h11]
      interval_cases M <;> norm_num [cumStart, mlen, leapB, hL] <;> omega)

/-- Day number of the 13th of the month with 0-based index m in year y. -/
def thirteenth (y : Int) (m : Nat) : Int := dayFromYear y + cumStart (leapInd y) (m : Int) + 12

theorem thirteenth_after (y : Int) (m : Nat) (hm : m < 12) :
    ∀ j : Nat, j ≤ 13 →
      thirteenth (y + (((m + j) / 12 : Nat) : Int)) ((m + j) % 12) =
        thirteenth y m + (cumOffset (leapB y) (leapB (y + 1)) m j : Int) := by
  intro j
  induction j with
  | zero =>
      intro _
      have h1 : (m + 0) / 12 = 0 := by omega
      have h2 : (m + 0) % 12 = m := by omega
      rw [h1, h2]
      simp [cumOffset]
  | succ k ih =>
      intro hk
      have ihk := ih (by omega)
      have hMk : (m + k) % 12 < 12 := Nat.mod_lt _ (by norm_num)
      have hstep := step13 (y + (((m + k) / 12 : Nat) : Int)) ((m + k) % 12) hMk
      have hflag : leapB (y + (((m + k) / 12 : Nat) : Int)) =
          (if m + k < 12 then leapB y else leapB (y + 1)) := by
        by_cases h : m + k < 12
        · have h0 : (m + k) / 12 = 0 := by omega
          rw [if_pos h, h0]
          norm_num
        · have h1 : (m + k) / 12 = 1 := by omega
          rw [if_neg h, h1]
          norm_num
      rw [hflag] at hstep
      clear ih
      by_cases h11 : (m + k) % 12 = 11
      · rw [if_pos (by exact_mod_cast congrArg (Nat.cast : Nat → Int) h11)] at hstep
        rw [h11] at hstep ihk
        have hd1 : (m + (k + 1)) / 12 = (m + k) / 12 + 1 := by omega
        have hd2 : (m + (k + 1)) % 12 = 0 := by omega
        rw [hd1, hd2]
        unfold thirteenth at ihk ⊢
        simp only [cumOffset]
        rw [h11]
        push_cast at hstep ihk ⊢
        ring_nf at hstep ihk ⊢
        omega
      · rw [if_neg (by omega)] at hstep
        have hd1 : (m + (k + 1)) / 12 = (m + k) / 12 := by omega
        have hd2 : (m + (k + 1)) % 12 = (m + k) % 12 + 1 := by omega
        rw [hd1, hd2]
        unfold thirteenth at ihk ⊢
        simp only [cumOffset]
        push_cast at hstep ihk ⊢
        omega

theorem thirteenth_extract (y : Int) (m : Nat) (hm : m < 12) :
    dateFromDay (thirteenth y m) = 13 := by
  have hlb := cumStart_succ_lb (leapInd y) (m : Int) (leapInd_nonneg y) (by omega) (by omega)
  have h := mk_extract y (m : Int) 13 (by omega) (by omega) (by norm_num) (by omega)
  have he : thirteenth y m = dayFromYear y + cumStart (leapInd y) (m : Int) + (13 - 1) := by
    unfold thirteenth; norm_num
  rw [he]
  exact h.2.2

theorem locate_day (z : Int) : ∃ (y : Int) (m : Nat) (dd : Int), m < 12 ∧ 0 ≤ dd ∧ dd ≤ 30 ∧
    z = dayFromYear y + cumStart (leapInd y) (m : Int) + dd := by
  have hb := monthFromDay_bounds z
  have hub := cumStart_succ_ub (inLeapYearI z) (monthFromDay z) (leapInd_le_one _)
    (by omega) (by omega)
  refine ⟨yearOfDay z, (monthFromDay z).toNat,
    dayWithinYear z - cumStart (inLeapYearI z) (monthFromDay z), by omega, by omega, by omega, ?_⟩
  have hc : ((monthFromDay z).toNat : Int) = monthFromDay z := by omega
  rw [hc]
  unfold dayWithinYear inLeapYearI at *
  omega

theorem friday13_after (z : Int) : ∃ g : Int, z < g ∧ weekdayOfDay g = 5 ∧
    dateFromDay g = 13 ∧ g ≤ z + 446 := by
  obtain ⟨y, m, dd, hm, hdd0, hdd1, hz⟩ := locate_day z
  have hstep := step13 y m hm
  -- the month after (y, m), with its year y1 and 0-based index m1
  have key : ∀ (y1 : Int) (m1 : Nat), m1 < 12 →
      thirteenth y1 m1 = dayFromYear y + cumStart (leapInd y) (m : Int) +
        (mlen (leapB y) m : Int) + 12 →
      ∃ g : Int, z < g ∧ weekdayOfDay g = 5 ∧ dateFromDay g = 13 ∧ g ≤ z + 446 := by
    intro y1 m1 hm1 hbase
    have hw0 : 0 ≤ weekdayOfDay (thirteenth y1 m1) := by unfold weekdayOfDay; omega
    have hw7 : weekdayOfDay (thirteenth y1 m1) < 7 := by unfold weekdayOfDay; omega
    obtain ⟨j, hj⟩ := coverage14 (leapB y1) (leapB (y1 + 1)) ⟨m1, hm1⟩
      ⟨(weekdayOfDay (thirteenth y1 m1)).toNat, by omega⟩
    have hj13 : (j : Nat) ≤ 13 := by omega
    have hpos := thirteenth_after y1 m1 hm1 (j : Nat) hj13
    refine ⟨thirteenth (y1 + (((m1 + (j : Nat)) / 12 : Nat) : Int)) ((m1 + (j : Nat)) % 12),
      ?_, ?_, ?_, ?_⟩
    · rw [hpos]
      have := mlen_lb (leapB y) m
      have : (28 : Int) ≤ (mlen (leapB y) m : Int) := by exact_mod_cast this
      omega
    · rw [hpos]
      unfold thirteenth at hj ⊢
      simp only [Fin.val_mk] at hj
      unfold weekdayOfDay at *
      omega
    · exact thirteenth_extract _ _ (Nat.mod_lt _ (by norm_num))
    · rw [hpos]
      have h1 := cumOffset_le (leapB y1) (leapB (y1 + 1)) m1 (j : Nat)
      have h2 : (cumOffset (leapB y1) (leapB (y1 + 1)) m1 (j : Nat) : Int) ≤ 31 * 13 := by
        have : cumOffset (leapB y1) (leapB (y1 + 1)) m1 (j : Nat) ≤ 31 * 13 := by
          have := cumOffset_le (leapB y1) (leapB (y1 + 1)) m1 (j : Nat)
          omega
        exact_mod_cast this
      have h3 := mlen_ub (leapB y) m
      have h4 : (mlen (leapB y) m : Int) ≤ 31 := by exact_mod_cast h3
      omega
  by_cases h11 : m = 11
  · refine key (y + 1) 0 (by norm_num) ?_
    subst h11
    rw [if_pos rfl] at hstep
    unfold thirteenth
    push_cast at hstep hz ⊢
    omega
  · refine key y (m + 1) (by omega) ?_
    rw [if_neg h11] at hstep
    unfold thirteenth
    push_cast at hstep hz ⊢
    omega

theorem walk_reaches : ∀ (k : Nat) (t : Int),
    (∃ j : Nat, j ≤ k ∧ dateFromDay (jsDay (getNextFriday t) + 7 * (j : Int)) = 13) →
    ∃ r, getNextFridayThe13thAux (k + 1) t = some r := by
  intro k
  induction k with
  | zero =>
      intro t h
      obtain ⟨j, hj, hd⟩ := h
      have hj0 : j = 0 := by omega
      subst hj0
      have h13 : getDate (getNextFriday t) = 13 := by
        unfold getDate
        simpa using hd
      simp only [getNextFridayThe13thAux]
      rw [if_pos h13]
      exact ⟨_, rfl⟩
  | succ k ih =>
      intro t h
      obtain ⟨j, hj, hd⟩ := h
      simp only [getNextFridayThe13thAux]
      by_cases h13 : getDate (getNextFriday t) = 13
      · rw [if_pos h13]
        exact ⟨_, rfl⟩
      · rw [if_neg h13]
        have hj0 : j ≠ 0 := by
          intro hcon
          subst hcon
          apply h13
          unfold getDate
          simpa using hd
        obtain ⟨j', rfl⟩ : ∃ j', j = j' + 1 := ⟨j - 1, by omega⟩
        apply ih (getNextFriday t)
        refine ⟨j', by omega, ?_⟩
        have hfri : getDay (getNextFriday t) = 5 := (nextFriday_props t).1
        have h7 : getNextFriday (getNextFriday t) = getNextFriday t + 7 * msPerDay :=
          (nextFriday_props (getNextFriday t)).2.2.2 hfri
        rw [h7, jsDay_add_days]
        have harr : jsDay (getNextFriday t) + 7 + 7 * (j' : Int) =
            jsDay (getNextFriday t) + 7 * ((j' : Int) + 1) := by ring
        rw [harr]
        have hc : ((j' : Int) + 1) = ((j' + 1 : Nat) : Int) := by push_cast; ring
        rw [hc]
        exact hd

/-- Fuel 84 always suffices for the next-Friday-the-13th walk. -/
theorem aux84_some (t : Int) :
    ∃ r, getNextFridayThe13thAux 84 t = some r := by
  have hfri : getDay (getNextFriday t) = 5 := (nextFriday_props t).1
  obtain ⟨g, hg1, hg2, hg3, hg4⟩ := friday13_after (jsDay (getNextFriday t))
  have hdvd : (7:Int) ∣ (g - jsDay (getNextFriday t)) := by
    unfold getDay weekdayOfDay at hfri
    unfold weekdayOfDay at hg2
    omega
  obtain ⟨q, hq⟩ := hdvd
  have hq1 : 1 ≤ q := by omega
  have hq63 : q ≤ 63 := by omega
  have h84 : (84 : Nat) = 83 + 1 := rfl
  rw [h84]
  apply walk_reaches 83 t
  refine ⟨q.toNat, by omega, ?_⟩
  have heq : jsDay (getNextFriday t) + 7 * ((q.toNat : Nat) : Int) = g := by
    push_cast
    omega
  rw [heq]
  exact hg3

/-- C8: the recursion of getNextFridayThe13th terminates on every start
date, reaching a Friday whose day of month is 13 within at most 84 advances
to the next Friday. -/
theorem getNextFridayThe13th_terminates (t : Int) :
    ∃ r, getNextFridayThe13thAux 84 t = some r :=
  aux84_some t

theorem aux_props : ∀ (n : Nat) (t r : Int), getNextFridayThe13thAux n t = some r →
    getDate r = 13 ∧ getDay r = 5 ∧ t < r ∧ r % 86400000 = t % 86400000 ∧
    ∀ d : Int, jsDay t < d → d < jsDay r → ¬(weekdayOfDay d = 5 ∧ dateFromDay d = 13) := by
  intro n
  induction n with
  | zero => intro t r h; simp [getNextFridayThe13thAux] at h
  | succ k ih =>
      intro t r h
      simp only [getNextFridayThe13thAux] at h
      by_cases h13 : getDate (getNextFriday t) = 13
      · rw [if_pos h13] at h
        obtain rfl : getNextFriday t = r := by simpa using h
        have hc := nextFriday_props t
        obtain ⟨kk, hk1, hk2, hk3, hk4, hk5⟩ := nextFriday_whole_days t
        refine ⟨h13, hc.1, hk4, hk5, ?_⟩
        intro d hd1 hd2 hdp
        exact hc.2.2.1 d hd1 hd2 hdp.1
      · rw [if_neg h13] at h
        have hih := ih (getNextFriday t) r h
        have hc := nextFriday_props t
        obtain ⟨kk, hk1, hk2, hk3, hk4, hk5⟩ := nextFriday_whole_days t
        refine ⟨hih.1, hih.2.1, by omega, ?_, ?_⟩
        · rw [hih.2.2.2.1, hk5]
        · intro d hd1 hd2 hdp
          by_cases hcmp : d < jsDay (getNextFriday t)
          · exact hc.2.2.1 d hd1 hcmp hdp.1
          · by_cases hceq : d = jsDay (getNextFriday t)
            · apply h13
              unfold getDate
              rw [← hceq]
              exact hdp.2
            · exact hih.2.2.2.2 d (by omega) hd2 hdp

/-- C3: getNextFridayThe13th always succeeds with a date whose day of month
is 13 and whose weekday is Friday, strictly after the input with the time
of day preserved, and no calendar day strictly between the input day and
the result day is a Friday the 13th; the spec example
Date(2024, 0, 13) -> Date(2024, 8, 13) is included. -/
theorem getNextFridayThe13th_correct :
    (∀ t : Int, ∃ r : Int, getNextFridayThe13th t = some r ∧ getDate r = 13 ∧
      getDay r = 5 ∧ t < r ∧ r % 86400000 = t % 86400000 ∧
      ∀ d : Int, jsDay t < d → d < jsDay r →
        ¬(weekdayOfDay d = 5 ∧ dateFromDay d = 13)) ∧
    getNextFridayThe13th (mkDateTs 2024 0 13) = some (mkDateTs 2024 8 13) := by
  constructor
  · intro t
    obtain ⟨r, hr⟩ := aux84_some t
    have hp := aux_props 84 t r hr
    exact ⟨r, hr, hp⟩
  · decide
